import Mathlib

/-! Formal model of the free-block finder of src/analyze_cal.py.

The function find_free_blocks (lines 206-343) parses each input event into a
record with a calendar day, a start time in minutes after midnight (the hour
and minute fields of a datetime.time), and a duration in minutes (an int
parsed from the Duration column).  It then sorts the parsed events by
(day, start) with a stable sort (line 247), groups them by day preserving
first-appearance order (lines 250-255), and scans each day from a 06:00
cursor, emitting gaps of at least 30 minutes before the first event, between
events, and after the last event up to 18:00, moving the cursor to the end of
each event, capped at 23:59 (lines 258-341).  Minutes of day are modelled as
Nat, durations as Int (the int() parse can produce any integer), and a raised
Python exception as none. -/

/-- Parsed event, as built in event_times (lines 240-244): a day key, the
start time in minutes after midnight (datetime.time bounds it to 0..1439),
and the duration in minutes. -/
structure Event where
  day : Nat
  start : Nat
  duration : Int
deriving DecidableEq

/-- Output block (lines 277-281, 308-312, 337-341): the date key, the start
time of the gap (the cursor at emission, formatted from a datetime.time), and
the gap length in minutes (formatted as hours and minutes; the formatting is
injective on positive lengths, so the number itself is kept here). -/
structure FreeBlock where
  day : Nat
  start : Nat
  duration : Nat
deriving DecidableEq

/-- Gap emission as performed at each of the three sites (lines 266-281,
297-312, 327-341): when the cursor is before the target time, the candidate
gap is target - cursor minutes, kept only when it is at least 30 minutes. -/
def emitGap (dayKey cursor target : Nat) : List FreeBlock :=
  if cursor < target then
    if 30 ≤ target - cursor then [⟨dayKey, cursor, target - cursor⟩] else []
  else []

/-- Cursor update for one event (lines 284-293 and 315-324): end_minutes is
start plus duration; end_hour is its floor division by 60; when end_hour is at
least 24 the cursor is capped at 23:59 (minute 1439); otherwise
datetime.time(end_hour, end_minute) is built, which raises ValueError
(modelled as none) exactly when end_hour is negative, and otherwise denotes
minute end_minutes itself. -/
def advanceEnd (e : Event) : Option Nat :=
  if 24 ≤ ((e.start : Int) + e.duration).fdiv 60 then some 1439
  else if (e.start : Int) + e.duration < 0 then none
  else some ((e.start : Int) + e.duration).toNat

/-- Scan of the events of one day after the first event was consumed: the
loop of lines 296-324 emits the gap between the cursor and the next event
start and advances the cursor to the event end; lines 327-341 finish with the
gap from the cursor up to 18:00 (minute 1080). -/
def processRest (dayKey : Nat) : Nat → List Event → Option (List FreeBlock)
  | cursor, [] => some (emitGap dayKey cursor 1080)
  | cursor, e :: rest =>
    match advanceEnd e with
    | none => none
    | some c =>
      match processRest dayKey c rest with
      | none => none
      | some bs => some (emitGap dayKey cursor e.start ++ bs)

/-- Processing of one day (lines 259-341): the cursor starts at 06:00
(minute 360); the source handles the first event separately (lines 263-293)
and then loops over the remaining events; with no events the trailing-gap
check of lines 327-341 still runs on the 06:00 cursor. -/
def processDay (dayKey : Nat) (dateEvents : List Event) : Option (List FreeBlock) :=
  match dateEvents with
  | [] => some (emitGap dayKey 360 1080)
  | first :: rest =>
    match advanceEnd first with
    | none => none
    | some c =>
      match processRest dayKey c rest with
      | none => none
      | some bs => some (emitGap dayKey 360 first.start ++ bs)

/-- Insertion of one event into the ordered day table, as the dict update of
lines 252-255 behaves: append the event to the existing bucket of the same
day, or add a new bucket at the end of the table. -/
def addToGroups : List (Nat × List Event) → Event → List (Nat × List Event)
  | [], e => [(e.day, [e])]
  | (d, es) :: rest, e =>
    if d = e.day then (d, es ++ [e]) :: rest else (d, es) :: addToGroups rest e

/-- Grouping of the sorted events by day (lines 250-255): a Python dict keyed
by the formatted date preserves insertion order, so it is an ordered
association list built left to right; the formatted key is in bijection with
the (month, day) pair encoded in Event.day. -/
def groupByDay (l : List Event) : List (Nat × List Event) :=
  l.foldl addToGroups []

/-- Outer loop of lines 258-341: the free blocks of the days are appended in
the iteration order of the day table. -/
def processGroups : List (Nat × List Event) → Option (List FreeBlock)
  | [] => some []
  | (d, es) :: rest =>
    match processDay d es with
    | none => none
    | some bs =>
      match processGroups rest with
      | none => none
      | some more => some (bs ++ more)

/-- Sort order of line 247: the Python sort key is the pair of the date and
the start time, compared lexicographically. -/
def eventLE (a b : Event) : Prop :=
  a.day < b.day ∨ (a.day = b.day ∧ a.start ≤ b.start)

instance : DecidableRel eventLE := fun a b => by
  unfold eventLE; infer_instance

instance : IsTotal Event eventLE := ⟨by intro a b; unfold eventLE; omega⟩

instance : IsTrans Event eventLE := ⟨by intro a b c; unfold eventLE; omega⟩

/-- Stable sort of line 247: Python list.sort is a stable sort, and any two
stable sorts under the same total preorder compute the same function, so the
stable insertion sort is extensionally the same operation. -/
def sortEvents (l : List Event) : List Event :=
  l.insertionSort eventLE

/-- Core free-block computation of find_free_blocks (lines 206-343) on parsed
events: the guard of lines 208-209 returns the empty list for an empty input;
otherwise the events are sorted, grouped by day and scanned day by day. -/
def find_free_blocks (events : List Event) : Option (List FreeBlock) :=
  match events with
  | [] => some []
  | _ => processGroups (groupByDay (sortEvents events))

/-- Raw event before date parsing: the month and day printed in the Date
column (a string such as Jun 17, split at line 235), plus the start time and
the duration. -/
structure RawEvent where
  month : Nat
  day : Nat
  start : Nat
  duration : Int
deriving DecidableEq

/-- Gregorian leap-year rule applied by the datetime.strptime date
validation. -/
def isLeapYear (y : Nat) : Bool :=
  y % 4 = 0 && (y % 100 ≠ 0 || y % 400 = 0)

/-- Length of each month under datetime.strptime validation. -/
def daysInMonth (m y : Nat) : Nat :=
  if m = 2 then (if isLeapYear y then 29 else 28)
  else if m = 4 ∨ m = 6 ∨ m = 9 ∨ m = 11 then 30
  else 31

/-- Date parsing of lines 236-238: strptime on the date text with the current
year succeeds exactly when month and day form a valid date of that year, and
raises ValueError (modelled as none) otherwise.  The parsed date orders and
groups events by (month, day) within one run; month * 32 + day is an order
preserving injective encoding of that pair for valid dates. -/
def parseEvent (y : Nat) (e : RawEvent) : Option Event :=
  if 1 ≤ e.month ∧ e.month ≤ 12 ∧ 1 ≤ e.day ∧ e.day ≤ daysInMonth e.month y then
    some ⟨e.month * 32 + e.day, e.start, e.duration⟩
  else none

/-- Parsing loop of lines 213-244: each event is parsed in input order and
the first strptime failure aborts the whole call with the raised error. -/
def parseAll (y : Nat) : List RawEvent → Option (List Event)
  | [] => some []
  | e :: rest =>
    match parseEvent y e with
    | none => none
    | some pe =>
      match parseAll y rest with
      | none => none
      | some prest => some (pe :: prest)

/-- Run of find_free_blocks at a given current year: line 237 reads the year
from the wall clock (datetime.datetime.now().year) and every event date is
parsed against that year (line 238) before the core computation runs; within
one run all events see the same year. -/
def find_free_blocks_at (y : Nat) (events : List RawEvent) : Option (List FreeBlock) :=
  match events with
  | [] => some []
  | _ =>
    match parseAll y events with
    | none => none
    | some parsed => find_free_blocks parsed

/-! Helper lemmas about the basic building blocks. -/

lemma mem_emitGap {d c t : Nat} {b : FreeBlock} :
    b ∈ emitGap d c t ↔ c < t ∧ 30 ≤ t - c ∧ b = ⟨d, c, t - c⟩ := by
  unfold emitGap
  split
  · split
    · simp_all
    · simp_all
  · simp_all

lemma advanceEnd_eq (e : Event) :
    advanceEnd e =
      if 1440 ≤ (e.start : Int) + e.duration then some 1439
      else if (e.start : Int) + e.duration < 0 then none
      else some ((e.start : Int) + e.duration).toNat := by
  have h : (24 ≤ ((e.start : Int) + e.duration).fdiv 60) ↔
      1440 ≤ (e.start : Int) + e.duration := by
    rw [Int.fdiv_eq_ediv _ (by norm_num)]
    omega
  unfold advanceEnd
  split_ifs with h1 h2 h3 h4 h5 <;> first
    | rfl
    | (exact absurd (h.mp h1) h2)
    | (exact absurd (h.mpr h3) h1)
    | omega

lemma advanceEnd_some_of_nonneg {e : Event}
    (h : 0 ≤ (e.start : Int) + e.duration) : ∃ c, advanceEnd e = some c := by
  rw [advanceEnd_eq]
  split_ifs with h1 h2
  · exact ⟨1439, rfl⟩
  · omega
  · exact ⟨_, rfl⟩

lemma advanceEnd_lb {e : Event} {c : Nat} (h : advanceEnd e = some c)
    (hd : 0 ≤ e.duration) (hs : e.start ≤ 1439) : e.start ≤ c := by
  rw [advanceEnd_eq] at h
  split_ifs at h with h1 h2
  · cases h; omega
  · cases h; omega

lemma advanceEnd_le_1439 {e : Event} {c : Nat} (h : advanceEnd e = some c) :
    c ≤ 1439 := by
  rw [advanceEnd_eq] at h
  split_ifs at h with h1 h2
  · cases h; omega
  · cases h; omega

lemma advanceEnd_val {e : Event} {c : Nat} (h : advanceEnd e = some c)
    (hn : ¬ 1440 ≤ (e.start : Int) + e.duration) :
    (c : Int) = (e.start : Int) + e.duration := by
  rw [advanceEnd_eq] at h
  split_ifs at h
  cases h
  omega

lemma advanceEnd_clamp {e : Event} (h : 1440 ≤ (e.start : Int) + e.duration) :
    advanceEnd e = some 1439 := by
  rw [advanceEnd_eq, if_pos h]

lemma processDay_eq (d : Nat) (es : List Event) :
    processDay d es = processRest d 360 es := by
  cases es <;> rfl

lemma processRest_day {d : Nat} : ∀ {es : List Event} {c : Nat}
    {bs : List FreeBlock}, processRest d c es = some bs →
    ∀ b ∈ bs, b.day = d := by
  intro es
  induction es with
  | nil =>
    intro c bs h b hb
    unfold processRest at h
    cases h
    rcases mem_emitGap.mp hb with ⟨-, -, rfl⟩
    rfl
  | cons e rest ih =>
    intro c bs h b hb
    unfold processRest at h
    split at h
    · exact Option.noConfusion h
    · split at h
      · exact Option.noConfusion h
      · cases h
        rcases List.mem_append.mp hb with hb | hb
        · rcases mem_emitGap.mp hb with ⟨-, -, rfl⟩
          rfl
        · exact ih (by assumption) b hb

lemma processRest_duration {d : Nat} : ∀ {es : List Event} {c : Nat}
    {bs : List FreeBlock}, processRest d c es = some bs →
    ∀ b ∈ bs, 30 ≤ b.duration := by
  intro es
  induction es with
  | nil =>
    intro c bs h b hb
    unfold processRest at h
    cases h
    rcases mem_emitGap.mp hb with ⟨-, h30, rfl⟩
    exact h30
  | cons e rest ih =>
    intro c bs h b hb
    unfold processRest at h
    split at h
    · exact Option.noConfusion h
    · split at h
      · exact Option.noConfusion h
      · cases h
        rcases List.mem_append.mp hb with hb | hb
        · rcases mem_emitGap.mp hb with ⟨-, h30, rfl⟩
          exact h30
        · exact ih (by assumption) b hb

lemma processRest_total {d : Nat} : ∀ {es : List Event} {c : Nat},
    (∀ e ∈ es, 0 ≤ e.duration) → ∃ bs, processRest d c es = some bs := by
  intro es
  induction es with
  | nil => exact fun _ => ⟨_, rfl⟩
  | cons e rest ih =>
    intro c h
    have hd : 0 ≤ e.duration := h e (List.mem_cons_self e rest)
    have he : 0 ≤ (e.start : Int) + e.duration := by positivity
    rcases advanceEnd_some_of_nonneg he with ⟨c2, hc2⟩
    rcases ih (c := c2) (fun x hx => h x (List.mem_cons_of_mem e hx)) with ⟨bs, hbs⟩
    refine ⟨emitGap d c e.start ++ bs, ?_⟩
    simp only [processRest, hc2, hbs]

lemma emitGap_pairwise {d c t : Nat} {r : FreeBlock → FreeBlock → Prop} :
    (emitGap d c t).Pairwise r := by
  unfold emitGap
  split
  · split
    · simp
    · simp
  · simp

lemma processRest_window {d : Nat} : ∀ {es : List Event} {c : Nat}
    {bs : List FreeBlock},
    processRest d c es = some bs →
    (∀ e ∈ es, 360 ≤ e.start ∧ 0 ≤ e.duration ∧ (e.start : Int) + e.duration ≤ 1080) →
    360 ≤ c →
    ∀ b ∈ bs, 360 ≤ b.start ∧ b.start + b.duration ≤ 1080 := by
  intro es
  induction es with
  | nil =>
    intro c bs h _ hc b hb
    unfold processRest at h
    cases h
    rcases mem_emitGap.mp hb with ⟨hlt, h30, rfl⟩
    exact ⟨hc, by simp; omega⟩
  | cons e rest ih =>
    intro c bs h hes hc b hb
    obtain ⟨hs360, hd0, hle⟩ := hes e (List.mem_cons_self e rest)
    cases hadv : advanceEnd e with
    | none =>
      simp only [processRest, hadv] at h
      exact Option.noConfusion h
    | some c2 =>
      cases hrest : processRest d c2 rest with
      | none =>
        simp only [processRest, hadv, hrest] at h
        exact Option.noConfusion h
      | some bs2 =>
        simp only [processRest, hadv, hrest] at h
        cases h
        have hval : (c2 : Int) = (e.start : Int) + e.duration :=
          advanceEnd_val hadv (by omega)
        rcases List.mem_append.mp hb with hb | hb
        · rcases mem_emitGap.mp hb with ⟨hlt, h30, rfl⟩
          exact ⟨hc, by simp; omega⟩
        · exact ih hrest (fun x hx => hes x (List.mem_cons_of_mem e hx))
            (by omega) b hb

lemma processRest_chain {d : Nat} : ∀ {es : List Event} {c : Nat}
    {bs : List FreeBlock},
    processRest d c es = some bs →
    (∀ e ∈ es, 0 ≤ e.duration ∧ e.start ≤ 1439) →
    es.Pairwise (fun x y => x.start ≤ y.start) →
    bs.Pairwise (fun b1 b2 => b1.start + b1.duration ≤ b2.start) ∧
      ∀ b ∈ bs, c ≤ b.start ∨ ∃ e ∈ es, e.start ≤ b.start := by
  intro es
  induction es with
  | nil =>
    intro c bs h _ _
    unfold processRest at h
    cases h
    refine ⟨emitGap_pairwise, fun b hb => ?_⟩
    rcases mem_emitGap.mp hb with ⟨-, -, rfl⟩
    exact Or.inl le_rfl
  | cons e rest ih =>
    intro c bs h hval hsort
    obtain ⟨hd0, hs1439⟩ := hval e (List.mem_cons_self e rest)
    rcases List.pairwise_cons.mp hsort with ⟨hhead, htail⟩
    cases hadv : advanceEnd e with
    | none =>
      simp only [processRest, hadv] at h
      exact Option.noConfusion h
    | some c2 =>
      cases hrest : processRest d c2 rest with
      | none =>
        simp only [processRest, hadv, hrest] at h
        exact Option.noConfusion h
      | some bs2 =>
        simp only [processRest, hadv, hrest] at h
        cases h
        have hc2 : e.start ≤ c2 := advanceEnd_lb hadv hd0 hs1439
        obtain ⟨hpw2, hlb2⟩ :=
          ih hrest (fun x hx => hval x (List.mem_cons_of_mem e hx)) htail
        have hbs2lb : ∀ b ∈ bs2, e.start ≤ b.start := by
          intro b hb
          rcases hlb2 b hb with hcb | ⟨x, hx, hxb⟩
          · omega
          · exact le_trans (hhead x hx) hxb
        constructor
        · rw [List.pairwise_append]
          refine ⟨emitGap_pairwise, hpw2, ?_⟩
          intro b1 hb1 b2 hb2
          rcases mem_emitGap.mp hb1 with ⟨hlt, -, rfl⟩
          have := hbs2lb b2 hb2
          simp
          omega
        · intro b hb
          rcases List.mem_append.mp hb with hb | hb
          · rcases mem_emitGap.mp hb with ⟨-, -, rfl⟩
            exact Or.inl le_rfl
          · exact Or.inr ⟨e, List.mem_cons_self e rest, hbs2lb b hb⟩

lemma processRest_no_overlap {d : Nat} : ∀ {es : List Event} {c : Nat}
    {bs : List FreeBlock},
    processRest d c es = some bs →
    (∀ e ∈ es, 0 < e.duration ∧ e.start ≤ 1439) →
    es.Pairwise (fun x y => (x.start : Int) + x.duration ≤ y.start) →
    ∀ b ∈ bs,
      (∀ e ∈ es, (b.start : Int) + b.duration ≤ e.start ∨
        (e.start : Int) + e.duration ≤ b.start) ∧
      (c ≤ b.start ∨ ∃ e ∈ es, e.start ≤ b.start) := by
  intro es
  induction es with
  | nil =>
    intro c bs h _ _ b hb
    unfold processRest at h
    cases h
    rcases mem_emitGap.mp hb with ⟨-, -, rfl⟩
    exact ⟨fun e he => absurd he (List.not_mem_nil e), Or.inl le_rfl⟩
  | cons e rest ih =>
    intro c bs h hval hchain
    obtain ⟨hd0, hs1439⟩ := hval e (List.mem_cons_self e rest)
    rcases List.pairwise_cons.mp hchain with ⟨hhead, htail⟩
    cases hadv : advanceEnd e with
    | none =>
      simp only [processRest, hadv] at h
      exact Option.noConfusion h
    | some c2 =>
      cases hrest : processRest d c2 rest with
      | none =>
        simp only [processRest, hadv, hrest] at h
        exact Option.noConfusion h
      | some bs2 =>
        simp only [processRest, hadv, hrest] at h
        cases h
        by_cases hcl : 1440 ≤ (e.start : Int) + e.duration
        · have hc2 : c2 = 1439 := by
            have := advanceEnd_clamp hcl
            rw [hadv] at this
            exact Option.some.inj this
          subst hc2
          have hrestnil : rest = [] := by
            cases rest with
            | nil => rfl
            | cons x xs =>
              obtain ⟨-, hx1439⟩ := hval x (by simp)
              have := hhead x (by simp)
              omega
          subst hrestnil
          unfold processRest at hrest
          cases hrest
          have hnil : emitGap d 1439 1080 = [] := by
            unfold emitGap
            rw [if_neg (by omega)]
          rw [hnil, List.append_nil]
          intro b hb
          rcases mem_emitGap.mp hb with ⟨hlt, -, rfl⟩
          refine ⟨fun x hx => ?_, Or.inl le_rfl⟩
          rcases List.mem_singleton.mp hx with rfl
          left
          simp
          omega
        · have hc2v : (c2 : Int) = (e.start : Int) + e.duration :=
            advanceEnd_val hadv hcl
          have H2 := ih hrest (fun x hx => hval x (List.mem_cons_of_mem e hx)) htail
          intro b hb
          rcases List.mem_append.mp hb with hb | hb
          · rcases mem_emitGap.mp hb with ⟨hlt, -, rfl⟩
            refine ⟨fun x hx => ?_, Or.inl le_rfl⟩
            rcases List.mem_cons.mp hx with rfl | hx
            · left
              simp
              omega
            · left
              have := hhead x hx
              simp
              omega
          · obtain ⟨hdisj, hlb⟩ := H2 b hb
            have hble : (e.start : Int) + e.duration ≤ b.start := by
              rcases hlb with hcb | ⟨x, hx, hxb⟩
              · omega
              · have := hhead x hx
                omega
            refine ⟨fun x hx => ?_,
              Or.inr ⟨e, List.mem_cons_self e rest, by omega⟩⟩
            rcases List.mem_cons.mp hx with rfl | hx
            · exact Or.inr hble
            · exact hdisj x hx

/-! Lemmas about the day table built by groupByDay. -/

lemma addToGroups_keys (gs : List (Nat × List Event)) (e : Event) :
    (addToGroups gs e).map Prod.fst =
      if e.day ∈ gs.map Prod.fst then gs.map Prod.fst
      else gs.map Prod.fst ++ [e.day] := by
  induction gs with
  | nil => simp [addToGroups]
  | cons q rest ih =>
    obtain ⟨d, es⟩ := q
    by_cases hd : d = e.day
    · subst hd
      simp [addToGroups]
    · simp only [addToGroups, if_neg hd, List.map_cons, ih, List.mem_cons]
      by_cases hm : e.day ∈ rest.map Prod.fst
      · simp [hm, Ne.symm hd]
      · simp [hm, Ne.symm hd]

lemma addToGroups_nodup (gs : List (Nat × List Event)) (e : Event)
    (h : (gs.map Prod.fst).Nodup) : ((addToGroups gs e).map Prod.fst).Nodup := by
  rw [addToGroups_keys]
  split_ifs with hm
  · exact h
  · rw [List.nodup_append]
    refine ⟨h, List.nodup_singleton _, ?_⟩
    intro a ha hae
    rw [List.mem_singleton] at hae
    subst hae
    exact hm ha

lemma addToGroups_buckets : ∀ (gs : List (Nat × List Event)) (e : Event)
    (m : List Event), (gs.map Prod.fst).Nodup →
    (∀ p ∈ gs, p.2 = m.filter (fun x => x.day == p.1)) →
    (e.day ∉ gs.map Prod.fst → m.filter (fun x => x.day == e.day) = []) →
    ∀ p ∈ addToGroups gs e, p.2 = (m ++ [e]).filter (fun x => x.day == p.1) := by
  intro gs
  induction gs with
  | nil =>
    intro e m _ _ hnone p hp
    simp only [addToGroups, List.mem_singleton] at hp
    subst hp
    simp [List.filter_append, hnone (by simp), List.filter_singleton]
  | cons q rest ih =>
    obtain ⟨d, es⟩ := q
    intro e m hnd hbk hnone p hp
    by_cases hd : d = e.day
    · simp only [addToGroups, if_pos hd, List.mem_cons] at hp
      rcases hp with rfl | hp
      · have hes : es = m.filter (fun x => x.day == d) :=
          hbk (d, es) (List.mem_cons_self _ _)
        have h1 : List.filter (fun x => x.day == d) [e] = [e] := by
          simp [List.filter_singleton, beq_iff_eq, hd.symm]
        show es ++ [e] = (m ++ [e]).filter (fun x => x.day == d)
        rw [List.filter_append, h1, ← hes]
      · have hp1 : p.1 ∈ rest.map Prod.fst := List.mem_map_of_mem Prod.fst hp
        have hdp : d ≠ p.1 := by
          intro hcontra
          rw [List.map_cons] at hnd
          exact (List.nodup_cons.mp hnd).1 (hcontra ▸ hp1)
        have hep : e.day ≠ p.1 := hd ▸ hdp
        rw [List.filter_append]
        have h0 : List.filter (fun x => x.day == p.1) [e] = [] := by
          simp [List.filter_singleton, beq_iff_eq, hep]
        rw [h0, List.append_nil]
        exact hbk p (List.mem_cons_of_mem _ hp)
    · simp only [addToGroups, if_neg hd, List.mem_cons] at hp
      rcases hp with rfl | hp
      · have h0 : List.filter (fun x => x.day == d) [e] = [] := by
          simp only [List.filter_singleton]
          have hne : (e.day == d) = false := by
            simp only [beq_eq_false_iff_ne]
            exact fun hcontra => hd hcontra.symm
          rw [hne]
          rfl
        show es = (m ++ [e]).filter (fun x => x.day == d)
        rw [List.filter_append, h0, List.append_nil]
        exact hbk (d, es) (List.mem_cons_self _ _)
      · refine ih e m ((List.map_cons Prod.fst _ _ ▸ hnd).of_cons)
          (fun q hq => hbk q (List.mem_cons_of_mem _ hq)) ?_ p hp
        intro hnotin
        refine hnone ?_
        rw [List.map_cons, List.mem_cons]
        rintro (hcontra | hcontra)
        · exact hd hcontra.symm
        · exact hnotin hcontra

lemma groupByDay_invariant : ∀ (l m : List Event) (gs : List (Nat × List Event)),
    (gs.map Prod.fst).Nodup →
    (∀ p ∈ gs, p.2 = m.filter (fun x => x.day == p.1)) →
    (∀ x ∈ m, x.day ∈ gs.map Prod.fst) →
    ((l.foldl addToGroups gs).map Prod.fst).Nodup ∧
    (∀ p ∈ l.foldl addToGroups gs, p.2 = (m ++ l).filter (fun x => x.day == p.1)) ∧
    (∀ x ∈ m ++ l, x.day ∈ (l.foldl addToGroups gs).map Prod.fst) := by
  intro l
  induction l with
  | nil =>
    intro m gs hnd hbk hcov
    simp only [List.foldl_nil, List.append_nil]
    exact ⟨hnd, hbk, hcov⟩
  | cons e l ih =>
    intro m gs hnd hbk hcov
    have hnone : e.day ∉ gs.map Prod.fst →
        m.filter (fun x => x.day == e.day) = [] := by
      intro hnotin
      rw [List.filter_eq_nil_iff]
      intro x hx
      simp only [beq_iff_eq]
      intro hcontra
      exact hnotin (hcontra ▸ hcov x hx)
    have hstep_nd := addToGroups_nodup gs e hnd
    have hstep_bk := addToGroups_buckets gs e m hnd hbk hnone
    have hstep_cov : ∀ x ∈ m ++ [e], x.day ∈ (addToGroups gs e).map Prod.fst := by
      intro x hx
      rw [addToGroups_keys]
      rcases List.mem_append.mp hx with hx | hx
      · have := hcov x hx
        split_ifs with hm
        · exact this
        · exact List.mem_append.mpr (Or.inl this)
      · rcases List.mem_singleton.mp hx with rfl
        split_ifs with hm
        · exact hm
        · exact List.mem_append.mpr (Or.inr (by simp))
    have := ih (m ++ [e]) (addToGroups gs e) hstep_nd hstep_bk hstep_cov
    simpa [List.append_assoc] using this

lemma groupByDay_nodup (l : List Event) : ((groupByDay l).map Prod.fst).Nodup :=
  (groupByDay_invariant l [] [] (by simp) (by simp) (by simp)).1

lemma groupByDay_buckets (l : List Event) :
    ∀ p ∈ groupByDay l, p.2 = l.filter (fun x => x.day == p.1) := by
  have h := (groupByDay_invariant l [] [] (by simp) (by simp) (by simp)).2.1
  simpa using h

/-! Lemmas about the outer day loop and the top-level function. -/

lemma processDay_day {d : Nat} {es : List Event} {bs : List FreeBlock}
    (h : processDay d es = some bs) : ∀ b ∈ bs, b.day = d := by
  rw [processDay_eq] at h
  exact processRest_day h

lemma processGroups_mem : ∀ {gs : List (Nat × List Event)} {bs : List FreeBlock},
    processGroups gs = some bs → ∀ b ∈ bs,
    ∃ d es dbs, (d, es) ∈ gs ∧ processDay d es = some dbs ∧ b ∈ dbs := by
  intro gs
  induction gs with
  | nil =>
    intro bs h b hb
    simp only [processGroups] at h
    cases h
    simp at hb
  | cons q rest ih =>
    obtain ⟨d, es⟩ := q
    intro bs h b hb
    cases hday : processDay d es with
    | none =>
      simp only [processGroups, hday] at h
      exact Option.noConfusion h
    | some dbs =>
      cases hrest : processGroups rest with
      | none =>
        simp only [processGroups, hday, hrest] at h
        exact Option.noConfusion h
      | some more =>
        simp only [processGroups, hday, hrest] at h
        cases h
        rcases List.mem_append.mp hb with hb | hb
        · exact ⟨d, es, dbs, List.mem_cons_self _ _, hday, hb⟩
        · rcases ih hrest b hb with ⟨d2, es2, dbs2, hmem, hd2, hb2⟩
          exact ⟨d2, es2, dbs2, List.mem_cons_of_mem _ hmem, hd2, hb2⟩

lemma processGroups_total : ∀ {gs : List (Nat × List Event)},
    (∀ p ∈ gs, ∃ dbs, processDay p.1 p.2 = some dbs) →
    ∃ bs, processGroups gs = some bs := by
  intro gs
  induction gs with
  | nil => exact fun _ => ⟨[], rfl⟩
  | cons q rest ih =>
    obtain ⟨d, es⟩ := q
    intro h
    rcases h (d, es) (List.mem_cons_self _ _) with ⟨dbs, hday⟩
    rcases ih (fun p hp => h p (List.mem_cons_of_mem _ hp)) with ⟨more, hrest⟩
    exact ⟨dbs ++ more, by simp only [processGroups, hday, hrest]⟩

lemma processGroups_pairwise {P : FreeBlock → FreeBlock → Prop} :
    ∀ {gs : List (Nat × List Event)} {bs : List FreeBlock},
    processGroups gs = some bs → (gs.map Prod.fst).Nodup →
    (∀ d es dbs, (d, es) ∈ gs → processDay d es = some dbs → dbs.Pairwise P) →
    bs.Pairwise (fun b1 b2 => b1.day = b2.day → P b1 b2) := by
  intro gs
  induction gs with
  | nil =>
    intro bs h _ _
    simp only [processGroups] at h
    cases h
    exact List.Pairwise.nil
  | cons q rest ih =>
    obtain ⟨d, es⟩ := q
    intro bs h hnd hP
    cases hday : processDay d es with
    | none =>
      simp only [processGroups, hday] at h
      exact Option.noConfusion h
    | some dbs =>
      cases hrest : processGroups rest with
      | none =>
        simp only [processGroups, hday, hrest] at h
        exact Option.noConfusion h
      | some more =>
        simp only [processGroups, hday, hrest] at h
        cases h
        rw [List.pairwise_append]
        refine ⟨?_, ?_, ?_⟩
        · refine List.Pairwise.imp ?_ (hP d es dbs (List.mem_cons_self _ _) hday)
          exact fun h _ => h
        · refine ih hrest ?_
            (fun d2 es2 dbs2 hm => hP d2 es2 dbs2 (List.mem_cons_of_mem _ hm))
          rw [List.map_cons] at hnd
          exact hnd.of_cons
        · intro b1 hb1 b2 hb2 heq
          have hd1 : b1.day = d := processDay_day hday b1 hb1
          rcases processGroups_mem hrest b2 hb2 with
            ⟨d2, es2, dbs2, hm2, hday2, hb2m⟩
          have hd2 : b2.day = d2 := processDay_day hday2 b2 hb2m
          have hdd2 : d = d2 := by rw [← hd1, heq, hd2]
          rw [List.map_cons] at hnd
          refine absurd ?_ (List.nodup_cons.mp hnd).1
          rw [hdd2]
          exact List.mem_map.mpr ⟨(d2, es2), hm2, rfl⟩

lemma sortEvents_perm (l : List Event) : (sortEvents l).Perm l :=
  List.perm_insertionSort eventLE l

lemma sortEvents_sorted (l : List Event) : (sortEvents l).Sorted eventLE :=
  List.sorted_insertionSort eventLE l

lemma eventLE_same_day {x y : Event} (h : eventLE x y) (hd : x.day = y.day) :
    x.start ≤ y.start := by
  unfold eventLE at h
  omega

lemma eventLE_antisymm_key {x y : Event} (h1 : eventLE x y) (h2 : eventLE y x) :
    x.day = y.day ∧ x.start = y.start := by
  unfold eventLE at h1 h2
  omega

lemma find_free_blocks_eq (evts : List Event) :
    find_free_blocks evts = processGroups (groupByDay (sortEvents evts)) := by
  cases evts <;> rfl

lemma group_member {evts : List Event} {d : Nat} {es : List Event}
    (h : (d, es) ∈ groupByDay (sortEvents evts)) :
    ∀ e ∈ es, e ∈ evts ∧ e.day = d := by
  have hbk : es = (sortEvents evts).filter (fun x => x.day == d) :=
    groupByDay_buckets _ _ h
  intro e he
  rw [hbk] at he
  rcases List.mem_filter.mp he with ⟨hmem, hday⟩
  exact ⟨(sortEvents_perm evts).mem_iff.mp hmem, by simpa [beq_iff_eq] using hday⟩

lemma group_complete {evts : List Event} {d : Nat} {es : List Event}
    (h : (d, es) ∈ groupByDay (sortEvents evts)) :
    ∀ e ∈ evts, e.day = d → e ∈ es := by
  have hbk : es = (sortEvents evts).filter (fun x => x.day == d) :=
    groupByDay_buckets _ _ h
  intro e he hday
  rw [hbk]
  exact List.mem_filter.mpr ⟨(sortEvents_perm evts).mem_iff.mpr he,
    by simp [beq_iff_eq, hday]⟩

lemma group_sorted {evts : List Event} {d : Nat} {es : List Event}
    (h : (d, es) ∈ groupByDay (sortEvents evts)) :
    es.Pairwise (fun x y => x.start ≤ y.start) := by
  have hbk : es = (sortEvents evts).filter (fun x => x.day == d) :=
    groupByDay_buckets _ _ h
  have hsor : es.Pairwise eventLE := by
    rw [hbk]
    exact (sortEvents_sorted evts).filter _
  have hdays := group_member h
  refine hsor.imp_of_mem ?_
  intro x y hx hy hxy
  exact eventLE_same_day hxy (by rw [(hdays x hx).2, (hdays y hy).2])

lemma group_pairwise_of_input {evts : List Event} {d : Nat} {es : List Event}
    {R : Event → Event → Prop} (hsym : ∀ {x y : Event}, R x y → R y x)
    (h : (d, es) ∈ groupByDay (sortEvents evts)) (hR : evts.Pairwise R) :
    es.Pairwise R := by
  have hbk : es = (sortEvents evts).filter (fun x => x.day == d) :=
    groupByDay_buckets _ _ h
  rw [hbk]
  exact (((sortEvents_perm evts).pairwise_iff hsym).mpr hR).filter _

lemma find_free_blocks_mem {evts : List Event} {bs : List FreeBlock}
    (h : find_free_blocks evts = some bs) : ∀ b ∈ bs,
    ∃ d es dbs, (d, es) ∈ groupByDay (sortEvents evts) ∧
      processDay d es = some dbs ∧ b ∈ dbs := by
  rw [find_free_blocks_eq] at h
  exact processGroups_mem h

lemma eq_of_perm_of_sorted_of_keys_nodup : ∀ {l1 l2 : List Event},
    l1.Perm l2 → l1.Sorted eventLE → l2.Sorted eventLE →
    (l1.map fun e => (e.day, e.start)).Nodup → l1 = l2 := by
  intro l1
  induction l1 with
  | nil =>
    intro l2 hp _ _ _
    exact (hp.symm.eq_nil).symm
  | cons a t1 ih =>
    intro l2 hp hs1 hs2 hnd
    cases l2 with
    | nil => exact absurd hp.eq_nil (by simp)
    | cons b t2 =>
      have hab : a = b := by
        by_contra hne
        have ha2 : a ∈ b :: t2 := hp.subset (List.mem_cons_self a t1)
        have hb1 : b ∈ a :: t1 := hp.symm.subset (List.mem_cons_self b t2)
        have ha2m : a ∈ t2 := by
          rcases List.mem_cons.mp ha2 with h | h
          · exact absurd h hne
          · exact h
        have hb1m : b ∈ t1 := by
          rcases List.mem_cons.mp hb1 with h | h
          · exact absurd h.symm hne
          · exact h
        have h1 : eventLE a b := (List.pairwise_cons.mp hs1).1 b hb1m
        have h2 : eventLE b a := (List.pairwise_cons.mp hs2).1 a ha2m
        have hkey := eventLE_antisymm_key h1 h2
        rw [List.map_cons, List.nodup_cons] at hnd
        refine hnd.1 ?_
        rw [hkey.1, hkey.2]
        exact List.mem_map_of_mem _ hb1m
      subst hab
      have ht : t1.Perm t2 := hp.cons_inv
      have hres := ih ht hs1.of_cons hs2.of_cons (by
        rw [List.map_cons, List.nodup_cons] at hnd
        exact hnd.2)
      rw [hres]

lemma find_free_blocks_min_duration {evts : List Event} {bs : List FreeBlock}
    (h : find_free_blocks evts = some bs) : ∀ b ∈ bs, 30 ≤ b.duration := by
  intro b hb
  rcases find_free_blocks_mem h b hb with ⟨d, es, dbs, hg, hpd, hbd⟩
  rw [processDay_eq] at hpd
  exact processRest_duration hpd b hbd

lemma processDay_chain {evts : List Event} {d : Nat} {es : List Event}
    {dbs : List FreeBlock} (hg : (d, es) ∈ groupByDay (sortEvents evts))
    (hval : ∀ e ∈ evts, 0 ≤ e.duration ∧ e.start ≤ 1439)
    (hpd : processDay d es = some dbs) :
    dbs.Pairwise (fun b1 b2 => b1.start + b1.duration ≤ b2.start) := by
  rw [processDay_eq] at hpd
  exact (processRest_chain hpd (fun x hx => hval x (group_member hg x hx).1)
    (group_sorted hg)).1

lemma parseEvent_year_indep {y1 y2 : Nat} {e : RawEvent}
    (h : ¬(e.month = 2 ∧ e.day = 29)) : parseEvent y1 e = parseEvent y2 e := by
  have hdm : e.day ≤ daysInMonth e.month y1 ↔ e.day ≤ daysInMonth e.month y2 := by
    by_cases hm2 : e.month = 2
    · have hne : e.day ≠ 29 := fun hc => h ⟨hm2, hc⟩
      have hb1 : daysInMonth e.month y1 = 28 ∨ daysInMonth e.month y1 = 29 := by
        unfold daysInMonth
        rw [if_pos hm2]
        split_ifs <;> simp
      have hb2 : daysInMonth e.month y2 = 28 ∨ daysInMonth e.month y2 = 29 := by
        unfold daysInMonth
        rw [if_pos hm2]
        split_ifs <;> simp
      omega
    · have heq : daysInMonth e.month y1 = daysInMonth e.month y2 := by
        unfold daysInMonth
        rw [if_neg hm2, if_neg hm2]
      rw [heq]
  unfold parseEvent
  split_ifs with h1 h2 h3
  · rfl
  · exact absurd ⟨h1.1, h1.2.1, h1.2.2.1, hdm.mp h1.2.2.2⟩ h2
  · exact absurd ⟨h3.1, h3.2.1, h3.2.2.1, hdm.mpr h3.2.2.2⟩ h1
  · rfl

lemma parseAll_congr {y1 y2 : Nat} : ∀ {evts : List RawEvent},
    (∀ e ∈ evts, parseEvent y1 e = parseEvent y2 e) →
    parseAll y1 evts = parseAll y2 evts := by
  intro evts
  induction evts with
  | nil => exact fun _ => rfl
  | cons e rest ih =>
    intro h
    have he : parseEvent y1 e = parseEvent y2 e := h e (List.mem_cons_self e rest)
    have hrest : parseAll y1 rest = parseAll y2 rest :=
      ih fun x hx => h x (List.mem_cons_of_mem e hx)
    simp only [parseAll, he, hrest]

lemma find_free_blocks_singleton {e : Event} {c : Nat}
    (hc : advanceEnd e = some c) :
    find_free_blocks [e] =
      some ((emitGap e.day 360 e.start ++ emitGap e.day c 1080) ++ []) := by
  have h1 : groupByDay (sortEvents [e]) = [(e.day, [e])] := rfl
  rw [find_free_blocks_eq, h1]
  simp only [processGroups, processDay, hc, processRest]

/-! Claims. -/

/-- Claim C1, counterexample to the claim as stated.  For the overlapping
events 09:00 with 180 minutes and 09:30 with 30 minutes on one day, the
cursor is set to the end of each event in turn (lines 315-324), not to the
maximum with its previous value, so the scan emits the free block running
10:00 to 18:00, which covers 10:00 to 12:00, time occupied by the first,
longer event. -/
theorem find_free_blocks_overlap_counterexample :
    find_free_blocks [⟨0, 540, 180⟩, ⟨0, 570, 30⟩] =
      some [⟨0, 360, 180⟩, ⟨0, 600, 480⟩] ∧
    ¬ ((600 : Int) + 480 ≤ 540 ∨ (540 : Int) + 180 ≤ 600) :=
  ⟨by decide, by decide⟩

/-- Claim C1 (amended): free blocks never overlap an occupied interval of an
input event, provided every event has a positive duration and a valid start
time and no two events of the same day overlap; under these hypotheses the
end of each event is also the running maximum, so the assignment of the
source agrees with the max rule quoted by the claim. -/
theorem find_free_blocks_no_overlap (evts : List Event) (bs : List FreeBlock)
    (h : find_free_blocks evts = some bs)
    (hval : ∀ e ∈ evts, 0 < e.duration ∧ e.start ≤ 1439)
    (hdisj : evts.Pairwise (fun x y => x.day = y.day →
      (x.start : Int) + x.duration ≤ y.start ∨
      (y.start : Int) + y.duration ≤ x.start)) :
    ∀ b ∈ bs, ∀ e ∈ evts, b.day = e.day →
      (b.start : Int) + b.duration ≤ e.start ∨
      (e.start : Int) + e.duration ≤ b.start := by
  intro b hb e he hday
  rcases find_free_blocks_mem h b hb with ⟨d, es, dbs, hg, hpd, hbd⟩
  have hbday : b.day = d := processDay_day hpd b hbd
  have hees : e ∈ es := group_complete hg e he (by rw [← hday, hbday])
  have hmem := group_member hg
  have hchain : es.Pairwise (fun x y =>
      (x.start : Int) + x.duration ≤ y.start) := by
    have hgR := group_pairwise_of_input
      (fun {x y} hR hd => Or.symm (hR hd.symm)) hg hdisj
    refine ((group_sorted hg).and hgR).imp_of_mem ?_
    intro x y hx hy hxy
    obtain ⟨hste, hR⟩ := hxy
    have h0y : 0 < y.duration := (hval y (hmem y hy).1).1
    rcases hR (by rw [(hmem x hx).2, (hmem y hy).2]) with hc | hc
    · exact hc
    · omega
  rw [processDay_eq] at hpd
  exact (processRest_no_overlap hpd
    (fun x hx => hval x (hmem x hx).1) hchain b hbd).1 e hees

/-- Claim C1 witness: the amended no-overlap theorem applied to a concrete
one-event day; the trailing block starting at 10:00 sits after the event. -/
theorem find_free_blocks_no_overlap_witness :
    (600 : Int) + 480 ≤ 540 ∨ (540 : Int) + 60 ≤ 600 := by
  have h := find_free_blocks_no_overlap [⟨0, 540, 60⟩]
    [⟨0, 360, 180⟩, ⟨0, 600, 480⟩] (by decide) (by decide) (by simp)
    ⟨0, 600, 480⟩ (by decide) ⟨0, 540, 60⟩ (by decide) (by decide)
  exact h

/-- Claim C2, counterexample to the claim as stated: with an empty event
list the guard of lines 208-209 returns the empty list, which has zero
blocks, not the claimed single block spanning the full window. -/
theorem find_free_blocks_empty_counterexample :
    Option.map List.length (find_free_blocks []) ≠ some 1 := by decide

/-- Claim C2 (amended): an empty event list yields the empty block list, and
a day with no events contributes nothing, because only days of input events
appear in the day table. -/
theorem find_free_blocks_empty : find_free_blocks [] = some [] := rfl

/-- Claim C3, counterexample to the claim as stated: a single event at 19:00
is not clipped to the window, so the block before it runs from 06:00 to
19:00 and extends one hour past the 18:00 window end. -/
theorem find_free_blocks_window_counterexample :
    find_free_blocks [⟨0, 1140, 30⟩] = some [⟨0, 360, 780⟩] ∧
    ¬ (360 + 780 ≤ 1080) :=
  ⟨by decide, by decide⟩

/-- Claim C3 (amended): every returned block lies inside the 06:00 to 18:00
window provided every input event lies inside the window; events outside the
window move the cursor outside the bounds and break the claim as stated. -/
theorem find_free_blocks_confined (evts : List Event) (bs : List FreeBlock)
    (h : find_free_blocks evts = some bs)
    (hwin : ∀ e ∈ evts, 360 ≤ e.start ∧ 0 ≤ e.duration ∧
      (e.start : Int) + e.duration ≤ 1080) :
    ∀ b ∈ bs, 360 ≤ b.start ∧ b.start + b.duration ≤ 1080 := by
  intro b hb
  rcases find_free_blocks_mem h b hb with ⟨d, es, dbs, hg, hpd, hbd⟩
  rw [processDay_eq] at hpd
  exact processRest_window hpd
    (fun x hx => hwin x (group_member hg x hx).1) le_rfl b hbd

/-- Claim C3 witness: the amended confinement theorem applied to a concrete
in-window event; the morning block 06:00 to 09:00 stays inside the window. -/
theorem find_free_blocks_confined_witness :
    360 ≤ 360 ∧ 360 + 180 ≤ 1080 := by
  have h := find_free_blocks_confined [⟨0, 540, 60⟩]
    [⟨0, 360, 180⟩, ⟨0, 600, 480⟩] (by decide) (by decide)
    ⟨0, 360, 180⟩ (by decide)
  exact h

/-- Claim C4 (confirmed): no returned block is shorter than 30 minutes; each
of the three emission sites appends a block only after checking the
threshold (lines 269, 300, 329). -/
theorem find_free_blocks_threshold (evts : List Event) (bs : List FreeBlock)
    (h : find_free_blocks evts = some bs) : ∀ b ∈ bs, 30 ≤ b.duration :=
  find_free_blocks_min_duration h

/-- Claim C4 witness: the threshold theorem applied to a concrete run; the
morning block lasts 180 minutes. -/
theorem find_free_blocks_threshold_witness : 30 ≤ 180 := by
  have h := find_free_blocks_threshold [⟨0, 540, 60⟩]
    [⟨0, 360, 180⟩, ⟨0, 600, 480⟩] (by decide) ⟨0, 360, 180⟩ (by decide)
  exact h

/-- Claim C5 (confirmed): whenever start plus duration passes the end of the
representable day the cursor is capped at 23:59 instead of rolling over, and
the concrete scenario of an event at 23:30 lasting 90 minutes yields only
the block before the event within that day, with no trailing gap. -/
theorem find_free_blocks_midnight_clamp :
    (∀ e : Event, 1440 < (e.start : Int) + e.duration →
      advanceEnd e = some 1439) ∧
    find_free_blocks [⟨0, 1410, 90⟩] = some [⟨0, 360, 1050⟩] :=
  ⟨fun e h => advanceEnd_clamp (le_of_lt h), by decide⟩

/-- Claim C5 witness: the clamp rule applied to the concrete 23:30 event
lasting 90 minutes. -/
theorem find_free_blocks_midnight_clamp_witness :
    advanceEnd ⟨0, 1410, 90⟩ = some 1439 :=
  find_free_blocks_midnight_clamp.1 ⟨0, 1410, 90⟩ (by decide)

/-- Claim C6, counterexample to the claim as stated: two events of one day
share the start time 09:00 with durations 90 and 30; the stable sort keeps
the input order of the tie, the cursor ends at the end of the second listed
event, and the two input orders give different block sets even after
normalising by day and start, since the block starting at 09:30 appears in
only one of them. -/
theorem find_free_blocks_order_counterexample :
    find_free_blocks [⟨0, 540, 90⟩, ⟨0, 540, 30⟩] =
      some [⟨0, 360, 180⟩, ⟨0, 570, 510⟩] ∧
    find_free_blocks [⟨0, 540, 30⟩, ⟨0, 540, 90⟩] =
      some [⟨0, 360, 180⟩, ⟨0, 630, 450⟩] ∧
    (⟨0, 570, 510⟩ : FreeBlock) ∉
      [(⟨0, 360, 180⟩ : FreeBlock), ⟨0, 630, 450⟩] :=
  ⟨by decide, by decide, by decide⟩

/-- Claim C6 (amended): permuting the input list leaves the output unchanged
provided no two events share the same (day, start) key; with distinct keys
the stable sort of any permutation gives the same sorted list, and the rest
of the computation only reads the sorted list. -/
theorem find_free_blocks_perm_of_distinct_keys (l1 l2 : List Event)
    (hperm : l1.Perm l2)
    (hnd : (l1.map fun e => (e.day, e.start)).Nodup) :
    find_free_blocks l1 = find_free_blocks l2 := by
  have hnd1 : ((sortEvents l1).map fun e => (e.day, e.start)).Nodup :=
    ((sortEvents_perm l1).map _).nodup_iff.mpr hnd
  have hsorteq : sortEvents l1 = sortEvents l2 :=
    eq_of_perm_of_sorted_of_keys_nodup
      ((sortEvents_perm l1).trans (hperm.trans (sortEvents_perm l2).symm))
      (sortEvents_sorted l1) (sortEvents_sorted l2) hnd1
  rw [find_free_blocks_eq, find_free_blocks_eq, hsorteq]

/-- Claim C6 witness: two distinct-key events given in both orders produce
the same output. -/
theorem find_free_blocks_perm_witness :
    find_free_blocks [⟨0, 540, 60⟩, ⟨0, 600, 30⟩] =
      find_free_blocks [⟨0, 600, 30⟩, ⟨0, 540, 60⟩] :=
  find_free_blocks_perm_of_distinct_keys _ _ (List.Perm.swap _ _ _) (by decide)

/-- Claim C7, counterexample to the claim as stated: the function has no
window parameters and no InvalidWindow error; moreover not every event list
produces a result, since an event whose start plus duration is negative
makes datetime.time raise ValueError inside the scan. -/
theorem find_free_blocks_raise_counterexample :
    find_free_blocks [⟨0, 10, -30⟩] = none := by decide

/-- Claim C7 (amended): the window is fixed at 06:00 to 18:00, so a
malformed window cannot arise and no InvalidWindow error exists; the only
failure is the ValueError above, and every event list whose durations are
nonnegative, including self-overlapping ones, returns a result without
raising. -/
theorem find_free_blocks_total_of_nonneg (evts : List Event)
    (h : ∀ e ∈ evts, 0 ≤ e.duration) :
    ∃ bs, find_free_blocks evts = some bs := by
  rw [find_free_blocks_eq]
  refine processGroups_total ?_
  intro p hp
  obtain ⟨d, es⟩ := p
  simp only [processDay_eq]
  exact processRest_total fun x hx => h x (group_member hp x hx).1

/-- Claim C7 witness: the totality theorem applied to a concrete event. -/
theorem find_free_blocks_total_witness :
    ∃ bs, find_free_blocks [⟨0, 540, 60⟩] = some bs :=
  find_free_blocks_total_of_nonneg _ (by decide)

/-- Claim C8, counterexample to the claim as stated: an event of duration
minus 60 minutes is not rejected; the scan returns blocks, moving the cursor
back to 08:00 and emitting a block inside the event. -/
theorem find_free_blocks_negative_duration_counterexample :
    find_free_blocks [⟨0, 540, -60⟩] =
      some [⟨0, 360, 180⟩, ⟨0, 480, 600⟩] := by decide

/-- Claim C8 (amended): no InvalidEvent error exists; a negative duration is
silently processed, the cursor lands strictly before the start of the event,
and the whole computation still returns a result. -/
theorem negative_duration_not_rejected (e : Event) (hneg : e.duration < 0)
    (hnn : 0 ≤ (e.start : Int) + e.duration) (hs : e.start ≤ 1439) :
    (∃ c, advanceEnd e = some c ∧ (c : Int) < e.start) ∧
    (∃ bs, find_free_blocks [e] = some bs) := by
  have hncl : ¬ 1440 ≤ (e.start : Int) + e.duration := by omega
  rcases advanceEnd_some_of_nonneg hnn with ⟨c, hc⟩
  have hcv := advanceEnd_val hc hncl
  exact ⟨⟨c, hc, by omega⟩, ⟨_, find_free_blocks_singleton hc⟩⟩

/-- Claim C8 witness: the silent-processing theorem applied to an event at
09:00 of duration minus 60 minutes. -/
theorem negative_duration_not_rejected_witness :
    (∃ c, advanceEnd ⟨0, 540, -60⟩ = some c ∧
      (c : Int) < (⟨0, 540, -60⟩ : Event).start) ∧
    (∃ bs, find_free_blocks [(⟨0, 540, -60⟩ : Event)] = some bs) :=
  negative_duration_not_rejected _ (by decide) (by decide) (by decide)

/-- Claim C9, counterexample to the claim as stated: line 237 reads the year
from the wall clock, so the run with current year 2024 parses February 29
and returns blocks while the run with current year 2025 raises ValueError
in strptime; the output depends on when the function runs. -/
theorem find_free_blocks_at_feb29_counterexample :
    find_free_blocks_at 2024 [⟨2, 29, 540, 60⟩] =
      some [⟨93, 360, 180⟩, ⟨93, 600, 480⟩] ∧
    find_free_blocks_at 2025 [⟨2, 29, 540, 60⟩] = none :=
  ⟨by decide, by decide⟩

/-- Claim C9 (amended): runs at any two wall-clock years agree whenever no
event date is February 29, because the parsed keys and the rest of the
computation never use the year; determinism holds since the model is a pure
function of the year and the input. -/
theorem find_free_blocks_at_year_independent (y1 y2 : Nat)
    (evts : List RawEvent)
    (h : ∀ e ∈ evts, ¬(e.month = 2 ∧ e.day = 29)) :
    find_free_blocks_at y1 evts = find_free_blocks_at y2 evts := by
  have hpa : parseAll y1 evts = parseAll y2 evts :=
    parseAll_congr fun e he => parseEvent_year_indep (h e he)
  cases evts with
  | nil => rfl
  | cons e rest => simp only [find_free_blocks_at, hpa]

/-- Claim C9 witness: the year-independence theorem applied to June 17 at
the years 2024 and 2025. -/
theorem find_free_blocks_at_year_independent_witness :
    find_free_blocks_at 2024 [⟨6, 17, 540, 60⟩] =
      find_free_blocks_at 2025 [⟨6, 17, 540, 60⟩] :=
  find_free_blocks_at_year_independent 2024 2025 _ (by decide)

/-- Claim C10 (confirmed): for well-typed events (a nonnegative duration and
a start representable by datetime.time), the blocks of any single day are
pairwise disjoint and strictly ascending by start: each block ends at the
start of the event that closed it and every later cursor value is at or
beyond that start, even when a block overlaps an earlier occupied
interval. -/
theorem find_free_blocks_day_blocks_ordered (evts : List Event)
    (bs : List FreeBlock) (h : find_free_blocks evts = some bs)
    (hval : ∀ e ∈ evts, 0 ≤ e.duration ∧ e.start ≤ 1439) :
    bs.Pairwise (fun b1 b2 => b1.day = b2.day →
      b1.start + b1.duration ≤ b2.start ∧ b1.start < b2.start) := by
  have hdur := find_free_blocks_min_duration h
  rw [find_free_blocks_eq] at h
  have hp := processGroups_pairwise h (groupByDay_nodup _)
    (fun d es dbs hg hpd => processDay_chain hg hval hpd)
  refine hp.imp_of_mem ?_
  intro b1 b2 hb1 hb2 himp hday
  have hc := himp hday
  have h30 := hdur b1 hb1
  exact ⟨hc, by omega⟩

/-- Claim C10 witness: the per-day ordering theorem applied to the
overlapping pair of events used for the C1 counterexample; the two blocks
are still disjoint and ascending. -/
theorem find_free_blocks_day_blocks_ordered_witness :
    List.Pairwise (fun b1 b2 => b1.day = b2.day →
      b1.start + b1.duration ≤ b2.start ∧ b1.start < b2.start)
      [(⟨0, 360, 180⟩ : FreeBlock), ⟨0, 600, 480⟩] :=
  find_free_blocks_day_blocks_ordered [⟨0, 540, 180⟩, ⟨0, 570, 30⟩] _
    (by decide) (by decide)
